import Mathlib

/-!
# fileman: byte-level file primitives and directory renderers

Shallow embedding of `src/fileman.c`.

* The byte store (`fileman_read`, `fileman_write`, `fileman_append`,
  `fileman_copy`) runs over an explicit state `FS`: a flat namespace of regular
  files, a descriptor table, and the transfer limits the kernel will apply to
  the coming `read` and `write` calls.
* `int` is a 32-bit two's complement integer and `size_t` a 64-bit unsigned
  one (LP64); every conversion the C code performs is written out with
  `toInt32` and `toSizeT`.
* The renderers (`fileman_dir`, `fileman_tree` and their helpers `get_dir`,
  `get_tree`) run over a file-system tree `Node` and a working directory; the
  output descriptor is the text written so far. Recursion is bounded by fuel:
  `none` means that no result is reached with the fuel given.
-/

namespace Fileman

/-! ## Machine integers -/

/-- Conversion of an integer value to the 32-bit `int` (wrap-around). -/
def toInt32 (x : Int) : Int := (x + 2147483648) % 4294967296 - 2147483648

/-- Conversion of an integer value to the 64-bit unsigned `size_t`. -/
def toSizeT (x : Int) : Nat := (x % 18446744073709551616).toNat

/-- The error value of the byte store: `-1` returned through `size_t`. -/
def ERR : Nat := 18446744073709551615

/-! ## The kernel side: files, descriptors, system calls -/

abbrev Byte := Nat

/-- Flags of `open(2)`: the access mode (`O_RDONLY` is the absence of
`O_WRONLY`), `O_CREAT` and `O_APPEND`. -/
structure OFlags where
  wronly : Bool
  creat : Bool
  append : Bool
  deriving DecidableEq

def O_RDONLY : OFlags := ⟨false, false, false⟩
def O_WRONLY : OFlags := ⟨true, false, false⟩
def O_CREAT : OFlags := ⟨false, true, false⟩
def O_APPEND : OFlags := ⟨false, false, true⟩

/-- Bitwise or of two flag words. -/
def OFlags.or (a b : OFlags) : OFlags :=
  ⟨a.wronly || b.wronly, a.creat || b.creat, a.append || b.append⟩

/-- An open file description: the file it refers to, the file position, and
the flags it was opened with. -/
structure OpenFile where
  path : String
  pos : Nat
  wronly : Bool
  append : Bool
  deriving DecidableEq

/-- State of the byte store. `files` maps a path to the contents of the
regular file there (`none`: no such file); `fds` is the descriptor table,
indexed by descriptor number; `rcap` and `wcap` give, call by call, the most
bytes the next `read` and `write` will transfer (an empty list: no limit, the
call transfers everything requested or available). -/
structure FS where
  files : String → Option (List Byte)
  fds : List (Option OpenFile)
  rcap : List Nat
  wcap : List Nat

/-- Installs an open file description at the lowest free descriptor number. -/
def installFd : List (Option OpenFile) → OpenFile → Nat × List (Option OpenFile)
  | [], f => (0, [some f])
  | none :: rest, f => (0, some f :: rest)
  | some g :: rest, f => ((installFd rest f).1 + 1, some g :: (installFd rest f).2)

/-- The description behind a descriptor number, if it is open. -/
def fdGet (fds : List (Option OpenFile)) : Int → Option OpenFile
  | Int.ofNat n => fds.getD n none
  | Int.negSucc _ => none

/-- Replaces the table entry of a descriptor number. -/
def fdSet (fds : List (Option OpenFile)) (fd : Int) (e : Option OpenFile) :
    List (Option OpenFile) :=
  match fd with
  | Int.ofNat n => fds.set n e
  | Int.negSucc _ => fds

/-- The call `open(path, fl)` (with mode `S_IRUSR | S_IWUSR | S_IXUSR` when
`O_CREAT` is given): the new descriptor, or `-1` when the file does not exist
and `O_CREAT` is not given. An existing file is opened as it is: no flag used
by the program truncates it. -/
def sys_open (st : FS) (path : String) (fl : OFlags) : Int × FS :=
  match st.files path with
  | some _ =>
    let r := installFd st.fds ⟨path, 0, fl.wronly, fl.append⟩
    ((r.1 : Int), { st with fds := r.2 })
  | none =>
    if fl.creat then
      let r := installFd st.fds ⟨path, 0, fl.wronly, fl.append⟩
      ((r.1 : Int),
        { st with files := fun q => if q = path then some [] else st.files q, fds := r.2 })
    else (-1, st)

/-- The call `close(fd)`; on a number that is not an open descriptor it fails
and changes nothing. The program ignores the return value. -/
def sys_close (st : FS) (fd : Int) : FS :=
  { st with fds := fdSet st.fds fd none }

/-- The call `lseek(fd, off, SEEK_SET)`, where `off` is the `size_t` argument:
as an `off_t` it is negative from `2^63` on and the call then fails. The
program ignores the return value. -/
def sys_lseek (st : FS) (fd : Int) (off : Nat) : FS :=
  match fdGet st.fds fd with
  | some f =>
    if off < 9223372036854775808 then
      { st with fds := fdSet st.fds fd (some { f with pos := off }) }
    else st
  | none => st

/-- Result of `read(2)`: the return value, the bytes stored at the start of
the buffer, and the new state. -/
structure ReadOut where
  ret : Int
  data : List Byte
  st : FS

/-- The call `read(fd, _, size)`. -/
def sys_read (st : FS) (fd : Int) (size : Nat) : ReadOut :=
  match fdGet st.fds fd with
  | some f =>
    if f.wronly then ⟨-1, [], st⟩
    else
      match st.files f.path with
      | some content =>
        let want : Nat := match st.rcap with
          | [] => size
          | c :: _ => min size c
        let data := (content.drop f.pos).take want
        ⟨(data.length : Int), data,
          { st with
            fds := fdSet st.fds fd (some { f with pos := f.pos + data.length }),
            rcap := st.rcap.tail }⟩
      | none => ⟨-1, [], st⟩
  | none => ⟨-1, [], st⟩

/-- Contents of a file after `data` is written at position `at_`; a gap
between the old end of the file and `at_` reads as zero bytes. -/
def splice (content : List Byte) (at_ : Nat) (data : List Byte) : List Byte :=
  if data = [] then content
  else
    (content ++ List.replicate (at_ - content.length) 0).take at_ ++ data ++
      content.drop (at_ + data.length)

/-- The call `write(fd, data, data.length)`: the return value and the new
state. -/
def sys_write (st : FS) (fd : Int) (data : List Byte) : Int × FS :=
  match fdGet st.fds fd with
  | some f =>
    if f.wronly then
      match st.files f.path with
      | some content =>
        let k : Nat := match st.wcap with
          | [] => data.length
          | c :: _ => min data.length c
        let at_ : Nat := if f.append then content.length else f.pos
        ((k : Int),
          { st with
            files := fun q =>
              if q = f.path then some (splice content at_ (data.take k)) else st.files q,
            fds := fdSet st.fds fd (some { f with pos := at_ + k }),
            wcap := st.wcap.tail })
      | none => (-1, st)
    else (-1, st)
  | none => (-1, st)

/-! ## User buffers -/

/-- The `size` bytes of a buffer from offset `off` on. -/
def slice (buf : Nat → Byte) (off size : Nat) : List Byte :=
  (List.range size).map (fun i => buf (off + i))

/-- A buffer after `data` is stored from offset `off` on. -/
def store (buf : Nat → Byte) (off : Nat) (data : List Byte) : Nat → Byte :=
  fun i => if off ≤ i ∧ i < off + data.length then data.getD (i - off) 0 else buf i

/-! ## The byte store of `fileman.c` -/

/-- Result of a byte-store operation: the `size_t` return value and the new
state. -/
structure Ret where
  ret : Nat
  st : FS

/-- Result of `fileman_read`: return value, new state, and the caller's
buffer. -/
structure ReadRet where
  ret : Nat
  st : FS
  buf : Nat → Byte

/-- Embedding of `fileman_read`. -/
def fileman_read (st : FS) (fname : String) (foffset : Nat) (buf : Nat → Byte)
    (boffset size : Nat) : ReadRet :=
  let o := sys_open st fname O_RDONLY
  let fd := o.1
  if fd > 0 then
    let st1 := sys_lseek o.2 fd foffset
    let r := sys_read st1 fd size
    let file_rd := toInt32 r.ret
    ⟨toSizeT file_rd, r.st, store buf boffset r.data⟩
  else
    ⟨ERR, sys_close o.2 fd, buf⟩

/-- Embedding of `fileman_write`. -/
def fileman_write (st : FS) (fname : String) (foffset : Nat) (buf : Nat → Byte)
    (boffset size : Nat) : Ret :=
  let o := sys_open st fname O_WRONLY
  let fd := o.1
  if fd ≠ -1 then
    ⟨ERR, sys_close o.2 fd⟩
  else
    let o2 := sys_open o.2 fname (O_WRONLY.or O_CREAT)
    let fd := o2.1
    if fd < 0 then
      ⟨ERR, sys_close o2.2 fd⟩
    else
      let st1 := sys_lseek o2.2 fd foffset
      let w := sys_write st1 fd (slice buf boffset size)
      let file_wd := toInt32 w.1
      if file_wd < 0 ∨ toSizeT file_wd ≠ size then
        ⟨ERR, sys_close w.2 fd⟩
      else
        ⟨toSizeT file_wd, sys_close w.2 fd⟩

/-- Embedding of `fileman_append`. -/
def fileman_append (st : FS) (fname : String) (buf : Nat → Byte) (size : Nat) : Ret :=
  let o := sys_open st fname (O_APPEND.or O_WRONLY)
  let fd := o.1
  if fd < 0 then
    ⟨ERR, sys_close o.2 fd⟩
  else
    let w := sys_write o.2 fd (slice buf 0 size)
    let file_append := toInt32 w.1
    if file_append < 0 ∨ toSizeT file_append ≠ size then
      ⟨ERR, sys_close w.2 fd⟩
    else
      ⟨toSizeT file_append, sys_close w.2 fd⟩

/-- The `do ... while (bytes_read == 1024)` loop of `fileman_copy`; one unit
of fuel per iteration, `none` when the fuel runs out. The local `buf` holds
the bytes the `read` stored; `write` is asked for `bytes_read` of them. -/
def copy_loop : Nat → FS → Int → Int → Int → Option (Int × FS)
  | 0, _, _, _, _ => none
  | fuel + 1, st, f_src, f_dest, size_buf =>
    let r := sys_read st f_src 1024
    let bytes_read := toInt32 r.ret
    let w := sys_write r.st f_dest (r.data.take (toSizeT bytes_read))
    let bytes_write := toInt32 w.1
    let size_buf := toInt32 (size_buf + bytes_write)
    if bytes_read = 1024 then copy_loop fuel w.2 f_src f_dest size_buf
    else some (size_buf, w.2)

/-- Embedding of `fileman_copy`. -/
def fileman_copy (fuel : Nat) (st : FS) (fsrc fdest : String) : Option Ret :=
  let o := sys_open st fsrc O_RDONLY
  let f_src := o.1
  if f_src < 0 then
    some ⟨ERR, sys_close o.2 f_src⟩
  else
    let o2 := sys_open o.2 fdest O_WRONLY
    let f_dest := o2.1
    if f_dest ≠ -1 then
      some ⟨ERR, sys_close o2.2 f_dest⟩
    else
      let o3 := sys_open o2.2 fdest (O_WRONLY.or O_CREAT)
      let f_dest := o3.1
      if f_dest < 0 then
        some ⟨ERR, sys_close o3.2 f_dest⟩
      else
        match copy_loop fuel o3.2 f_src f_dest 0 with
        | none => none
        | some (size_buf, st1) =>
          some ⟨toSizeT size_buf, sys_close (sys_close st1 f_src) f_dest⟩

/-- Files of the example state: the terminal behind the three standard
descriptors, and one ten-byte file `src`. -/
def exFiles : String → Option (List Byte) := fun q =>
  if q = "tty" then some []
  else if q = "src" then some [1, 2, 3, 4, 5, 6, 7, 8, 9, 10]
  else none

/-- A standard descriptor, open on the terminal. -/
def tty (w : Bool) : Option OpenFile := some ⟨"tty", 0, w, false⟩

/-- The example state. -/
def exState : FS := ⟨exFiles, [tty false, tty true, tty true], [], []⟩

/-! ## The directory side: trees, working directory, `scandir` -/

/-- A node of the file system: a non-directory entry, or a directory with
its name, whether it can be entered (`chdir` succeeds), whether it can be
listed (`scandir` succeeds), and its entries in on-disk order. The entries
`.` and `..` are not stored; `scandir` adds them. -/
inductive Node where
  | file : String → Node
  | dir : String → Bool → Bool → List Node → Node

/-- Name of a node. -/
def Node.name : Node → String
  | .file n => n
  | .dir n _ _ _ => n

/-- Entries of a node (none for a non-directory). -/
def Node.kids : Node → List Node
  | .file _ => []
  | .dir _ _ _ ks => ks

/-- The `d_type` field of a directory entry. -/
inductive DType where
  | DT_DIR
  | DT_REG
  deriving DecidableEq

/-- A `struct dirent`, as far as the program reads it. -/
structure Dirent where
  d_name : String
  d_type : DType
  deriving DecidableEq

/-- The directory entry of a node. -/
def Node.dirent : Node → Dirent
  | .file n => ⟨n, DType.DT_REG⟩
  | .dir n _ _ _ => ⟨n, DType.DT_DIR⟩

/-- Whether `strcmp(a, b) <= 0`: the comparison of `alphasort` in the "C"
locale, the only locale the program runs in (it never calls `setlocale`).
Characters are compared by code point, which is the order of their UTF-8
bytes. -/
def strcmp_le : List Char → List Char → Bool
  | [], _ => true
  | _ :: _, [] => false
  | a :: as, b :: bs =>
    if a.toNat < b.toNat then true
    else if b.toNat < a.toNat then false
    else strcmp_le as bs

/-- Insertion into a list sorted by the name `key` gives. -/
def insertOn {α : Type} (key : α → String) (a : α) : List α → List α
  | [] => [a]
  | b :: l =>
    if strcmp_le (key a).data (key b).data then a :: b :: l
    else b :: insertOn key a l

/-- Sorting by name (insertion sort). -/
def sortOn {α : Type} (key : α → String) : List α → List α
  | [] => []
  | a :: l => insertOn key a (sortOn key l)

/-- The node a path of names leads to, from a starting node. -/
def resolve : Node → List String → Option Node
  | n, [] => some n
  | n, c :: cs =>
    match n.kids.find? (fun k => decide (k.name = c)) with
    | some k => resolve k cs
    | none => none

/-- The call `chdir(name)` for a single path component, in the file system
`root` with working directory `cwd` (the names from `root` down). It fails,
leaving the working directory where it is, unless `name` is a directory of
the working directory that can be entered; `..` moves one level up and stays
at the top of the file system. The program ignores the return value, so only
the new working directory is returned. -/
def chdir (root : Node) (cwd : List String) (name : String) : List String :=
  if name = "." then cwd
  else if name = ".." then cwd.dropLast
  else
    match resolve root (cwd ++ [name]) with
    | some (.dir _ true _ _) => cwd ++ [name]
    | _ => cwd

/-- The call `scandir(".", &flist, NULL, alphasort)`: the entries of the
working directory, `.` and `..` among them, sorted by name; `none` stands for
the return value `-1`. -/
def scandir (root : Node) (cwd : List String) : Option (List Dirent) :=
  match resolve root cwd with
  | some (.dir _ _ true ks) =>
    some (sortOn Dirent.d_name
      (⟨".", DType.DT_DIR⟩ :: ⟨"..", DType.DT_DIR⟩ :: ks.map Node.dirent))
  | _ => none

/-! ## The flat listing of `fileman.c` -/

/-- State of a traversal: the working directory and everything written to the
output descriptor so far. -/
structure Walk where
  cwd : List String
  out : String
  deriving DecidableEq

/-- The loop `for (i = 0; i < level; i++) dprintf(fd, "    ")`. -/
def indent_loop : Nat → String → String
  | 0, out => out
  | n + 1, out => indent_loop n (out ++ "    ")

/-- The `for` loop of `get_dir` over the entries still to visit; `self` is
`get_dir` itself, called on the directories. -/
def dir_entries (root : Node) (self : Walk → String → Nat → Option Walk) :
    List Dirent → Walk → Nat → Option Walk
  | [], w, _ => some w
  | e :: es, w, level =>
    if e.d_name = "." ∨ e.d_name = ".." then dir_entries root self es w level
    else
      let w1 : Walk := { w with out := indent_loop level w.out ++ e.d_name ++ "\n" }
      if e.d_type = DType.DT_DIR then
        match self w1 e.d_name (level + 1) with
        | none => none
        | some w2 =>
          dir_entries root self es { w2 with cwd := chdir root w2.cwd ".." } level
      else dir_entries root self es w1 level

/-- Embedding of `get_dir`; one unit of fuel per nested call, `none` when the
fuel runs out. When `scandir` fails the loop body never runs (the `free` of
the unset `flist` is taken to do nothing). -/
def get_dir (root : Node) : Nat → Walk → String → Nat → Option Walk
  | 0, _, _, _ => none
  | fuel + 1, w, dname, level =>
    let w1 : Walk := { w with cwd := chdir root w.cwd dname }
    match scandir root w1.cwd with
    | none => some w1
    | some flist => dir_entries root (get_dir root fuel) flist w1 level

/-- Embedding of `fileman_dir`. -/
def fileman_dir (root : Node) (fuel : Nat) (w : Walk) (dname : String) : Option Walk :=
  get_dir root fuel { w with out := w.out ++ dname ++ "\n" } dname 1

/-! ## The tree view of `fileman.c` -/

def TEE : String := "├"
def HOR : String := "─"
def VER : String := "│"
def ELB : String := "└"

/-- State of a tree traversal: working directory, output so far, and the
array `ancestors` (cell `k` for every index `k`; the C array has 100 cells
and a store at an index from 100 on has no defined result). -/
structure TWalk where
  cwd : List String
  out : String
  anc : Nat → Bool

/-- What one round `j` of the loop `for (j = 0; j <= level; j++)` prints;
`last` is the test `i == entry-1`. -/
def tree_unit (anc : Nat → Bool) (level : Nat) (last : Bool) (j : Nat) : String :=
  if j = level then
    if last then ELB ++ HOR ++ HOR ++ " "
    else TEE ++ HOR ++ HOR ++ " "
  else
    if anc j = true then VER ++ "   "
    else
      if j ≠ 0 then "    " else ""

/-- The loop `for (j = 0; j <= level; j++)` of `get_tree`. -/
def guide_loop (anc : Nat → Bool) (level : Nat) (last : Bool) (out : String) : String :=
  (List.range (level + 1)).foldl (fun o j => o ++ tree_unit anc level last j) out

/-- The `for` loop of `get_tree` over the entries still to visit (the entry
at hand is the last one, `i == entry-1`, when none is left after it); `self`
is `get_tree` itself. `none`: no defined result (out of fuel below, or a
store past the end of `ancestors`). -/
def tree_entries (root : Node) (self : TWalk → String → Nat → Option TWalk) :
    List Dirent → TWalk → Nat → Option TWalk
  | [], w, _ => some w
  | e :: es, w, level =>
    if level < 100 then
      let last : Bool := es.isEmpty
      let w0 : TWalk := { w with anc := fun k => if k = level then !last else w.anc k }
      if e.d_name = "." ∨ e.d_name = ".." then tree_entries root self es w0 level
      else
        let w1 : TWalk :=
          { w0 with out := guide_loop w0.anc level last w0.out ++ e.d_name ++ "\n" }
        if e.d_type = DType.DT_DIR then
          match self w1 e.d_name (level + 1) with
          | none => none
          | some w2 =>
            tree_entries root self es { w2 with cwd := chdir root w2.cwd ".." } level
        else tree_entries root self es w1 level
    else none

/-- Embedding of `get_tree`; fuel as in `get_dir`. -/
def get_tree (root : Node) : Nat → TWalk → String → Nat → Option TWalk
  | 0, _, _, _ => none
  | fuel + 1, w, dname, level =>
    let w1 : TWalk := { w with cwd := chdir root w.cwd dname }
    match scandir root w1.cwd with
    | none => some w1
    | some flist => tree_entries root (get_tree root fuel) flist w1 level

/-- Embedding of `fileman_tree`; `garbage` is what the uninitialised array
`ancestors` holds when it is declared. -/
def fileman_tree (root : Node) (fuel : Nat) (cwd : List String) (out : String)
    (garbage : Nat → Bool) (dname : String) : Option TWalk :=
  get_tree root fuel ⟨cwd, out ++ dname ++ "\n", garbage⟩ dname 1

/-! ## Reference renderings, written from the specification -/

/-- Concatenation of a list of texts. -/
def joinAll : List String → String
  | [] => ""
  | s :: l => s ++ joinAll l

/-- The line of the flat form for an entry at depth `d`: `4 * d` spaces, the
name, a newline. -/
def flatLine (d : Nat) (name : String) : String :=
  String.mk (List.replicate (4 * d) ' ') ++ name ++ "\n"

mutual
/-- Flat form of an entry at depth `d`: its own line, then, immediately after
it, the flat forms of its entries at depth `d + 1` in name order. -/
def flatNode (d : Nat) : Node → String
  | .file n => flatLine d n
  | .dir n _ _ ks =>
    flatLine d n ++ joinAll ((sortOn Prod.fst (flatKids (d + 1) ks)).map Prod.snd)
/-- Each entry of a directory with its name and its flat form. -/
def flatKids (d : Nat) : List Node → List (String × String)
  | [] => []
  | k :: ks => (k.name, flatNode d k) :: flatKids d ks
end

/-- Flat form of what lies below a directory whose entries are at depth `d`. -/
def flatBelow (d : Nat) (t : Node) : String :=
  joinAll ((sortOn Prod.fst (flatKids d t.kids)).map Prod.snd)

/-- The flat listing of the tree `t` under the root line `dname`. -/
def flatListing (dname : String) (t : Node) : String :=
  dname ++ "\n" ++ flatBelow 1 t

mutual
/-- Whether every directory of a tree can be entered and listed, and the names
in each directory are distinct and none of them is `.` or `..` (as in every
real directory). -/
def walkable : Node → Bool
  | .file _ => true
  | .dir _ e l ks =>
    e && l && decide ((ks.map Node.name).Nodup) &&
      ks.all (fun k => decide (k.name ≠ ".") && decide (k.name ≠ "..")) && walkableKids ks
def walkableKids : List Node → Bool
  | [] => true
  | k :: ks => walkable k && walkableKids ks
end

/-- Whether a node is a directory. -/
def Node.isDir : Node → Bool
  | .file _ => false
  | .dir _ _ _ _ => true

mutual
/-- Number of nested directory levels of a tree (0 for a non-directory). -/
def height : Node → Nat
  | .file _ => 0
  | .dir _ _ _ ks => heightKids ks + 1
def heightKids : List Node → Nat
  | [] => 0
  | k :: ks => max (height k) (heightKids ks)
end

/-- The loop of the tree view with the continuation flags passed by value:
`flags j` is what the enclosing level `j` chose before it descended towards
this directory, the guides of a line are drawn from `flags`, and a
subdirectory receives `flags` extended at `level` by whether more entries
follow; nothing a subdirectory does to its copy comes back. -/
def scoped_entries (root : Node)
    (self : Walk → (Nat → Bool) → String → Nat → Option Walk) :
    List Dirent → Walk → (Nat → Bool) → Nat → Option Walk
  | [], w, _, _ => some w
  | e :: es, w, flags, level =>
    let last : Bool := es.isEmpty
    if e.d_name = "." ∨ e.d_name = ".." then scoped_entries root self es w flags level
    else
      let w1 : Walk := { w with out := guide_loop flags level last w.out ++ e.d_name ++ "\n" }
      if e.d_type = DType.DT_DIR then
        match self w1 (fun k => if k = level then !last else flags k) e.d_name (level + 1) with
        | none => none
        | some w2 =>
          scoped_entries root self es { w2 with cwd := chdir root w2.cwd ".." } flags level
      else scoped_entries root self es w1 flags level

/-- The tree view with the continuation flags passed by value. -/
def get_tree_scoped (root : Node) : Nat → Walk → (Nat → Bool) → String → Nat → Option Walk
  | 0, _, _, _, _ => none
  | fuel + 1, w, flags, dname, level =>
    let w1 : Walk := { w with cwd := chdir root w.cwd dname }
    match scandir root w1.cwd with
    | none => some w1
    | some flist => scoped_entries root (get_tree_scoped root fuel) flist w1 flags level

/-- Whether a directory entry is a real entry, not `.` or `..`. -/
def Dirent.real (e : Dirent) : Bool :=
  !(decide (e.d_name = ".") || decide (e.d_name = ".."))

/-- The tree of the header comment of `fileman_tree`, cut to three entries. -/
def world : Node :=
  .dir "/" true true
    [.dir "world" true true [.dir "usa" true true [], .dir "europe" true true [.file "france"]]]

/-- A directory `d` with the entries `b`, `a`, `C`, `B`, in this order on
disk. -/
def lettersDir : Node :=
  .dir "/" true true [.dir "d" true true [.file "b", .file "a", .file "C", .file "B"]]

/-- A directory `world` whose only entry is the file `-a`. -/
def dashDir : Node :=
  .dir "/" true true [.dir "world" true true [.file "-a"]]

/-- A directory `top` with a subdirectory `s` that cannot be entered and a
file `z`. -/
def lockedDir : Node :=
  .dir "/" true true [.dir "top" true true [.dir "s" false true [], .file "z"]]

/-! ## The invariant of the copy loop -/

/-- What holds of the state between two rounds of the copy loop, `pos` bytes
into the source: both files are there, the destination holds the first `pos`
bytes of the source, both descriptors stand at `pos`, and no transfer limit is
pending. -/
def CopyInv (src dst : String) (content : List Byte) (a b : Int) (S : FS) (pos : Nat) : Prop :=
  S.files src = some content ∧ S.files dst = some (content.take pos) ∧
  fdGet S.fds a = some ⟨src, pos, false, false⟩ ∧
  fdGet S.fds b = some ⟨dst, pos, true, false⟩ ∧
  S.rcap = [] ∧ S.wcap = [] ∧ pos ≤ content.length

/-! ## Example states -/

/-- A source file of 2 GiB. -/
def hugeState : FS :=
  ⟨fun q => if q = "tty" then some [] else if q = "src" then some (List.replicate 2147483648 0)
    else none,
    [tty false, tty true, tty true], [], []⟩

/-- The example state where the next write transfers at most four bytes. -/
def shortWriteState : FS := { exState with wcap := [4] }

/-- The example state of a process started with descriptor 0 closed. -/
def noStdin : FS := ⟨exFiles, [none, tty true, tty true], [], []⟩

/-! ## Theorems: machine integers and the descriptor table -/

theorem getD_installFd_new (fds : List (Option OpenFile)) (f : OpenFile) :
    (installFd fds f).2.getD (installFd fds f).1 none = some f := by
  induction fds with
  | nil => rfl
  | cons x rest ih =>
    cases x with
    | none => rfl
    | some g => simpa [installFd] using ih

theorem getD_installFd_free (fds : List (Option OpenFile)) (f : OpenFile) :
    fds.getD (installFd fds f).1 none = none := by
  induction fds with
  | nil => rfl
  | cons x rest ih =>
    cases x with
    | none => rfl
    | some g => simpa [installFd] using ih

theorem getD_installFd_other (fds : List (Option OpenFile)) (f : OpenFile) (k : Nat)
    (hk : k ≠ (installFd fds f).1) :
    (installFd fds f).2.getD k none = fds.getD k none := by
  induction fds generalizing k with
  | nil =>
    cases k with
    | zero => simp [installFd] at hk
    | succ k => simp [installFd]
  | cons x rest ih =>
    cases x with
    | none =>
      cases k with
      | zero => simp [installFd] at hk
      | succ k => simp [installFd]
    | some g =>
      cases k with
      | zero => simp [installFd]
      | succ k =>
        have : k ≠ (installFd rest f).1 := by
          intro h; apply hk; simp [installFd, h]
        simpa [installFd] using ih k this

theorem getD_set_same (fds : List (Option OpenFile)) (n : Nat) (f : OpenFile)
    (e : Option OpenFile) (h : fds.getD n none = some f) :
    (fds.set n e).getD n none = e := by
  induction fds generalizing n with
  | nil => simp at h
  | cons x rest ih =>
    cases n with
    | zero => simp
    | succ n => simpa using ih n (by simpa using h)

theorem getD_set_other (fds : List (Option OpenFile)) (n k : Nat) (e : Option OpenFile)
    (h : k ≠ n) : (fds.set n e).getD k none = fds.getD k none := by
  induction fds generalizing n k with
  | nil => simp
  | cons x rest ih =>
    cases n with
    | zero =>
      cases k with
      | zero => exact absurd rfl h
      | succ k => simp
    | succ n =>
      cases k with
      | zero => simp
      | succ k => simpa using ih n k (by omega)

theorem fdGet_installFd_new (fds : List (Option OpenFile)) (f : OpenFile) :
    fdGet (installFd fds f).2 ((installFd fds f).1 : Int) = some f :=
  getD_installFd_new fds f

theorem fdGet_installFd_free (fds : List (Option OpenFile)) (f : OpenFile) :
    fdGet fds ((installFd fds f).1 : Int) = none :=
  getD_installFd_free fds f

theorem fdGet_installFd_other (fds : List (Option OpenFile)) (f : OpenFile) (k : Int)
    (hk : k ≠ ((installFd fds f).1 : Int)) :
    fdGet (installFd fds f).2 k = fdGet fds k := by
  cases k with
  | ofNat n => exact getD_installFd_other fds f n (fun h => hk (by rw [h]; rfl))
  | negSucc n => rfl

theorem fdGet_fdSet_same (fds : List (Option OpenFile)) (i : Int) (f : OpenFile)
    (e : Option OpenFile) (h : fdGet fds i = some f) : fdGet (fdSet fds i e) i = e := by
  cases i with
  | ofNat n => exact getD_set_same fds n f e h
  | negSucc n => simp [fdGet] at h

theorem fdGet_fdSet_other (fds : List (Option OpenFile)) (i k : Int) (e : Option OpenFile)
    (h : k ≠ i) : fdGet (fdSet fds i e) k = fdGet fds k := by
  cases i with
  | ofNat n =>
    cases k with
    | ofNat m => exact getD_set_other fds n m e (fun hm => h (by rw [hm]))
    | negSucc m => rfl
  | negSucc n => rfl

theorem toInt32_small (x : Int) (h0 : -2147483648 ≤ x) (h1 : x < 2147483648) :
    toInt32 x = x := by
  unfold toInt32; omega

theorem toInt32_add (x y : Int) : toInt32 (toInt32 x + y) = toInt32 (x + y) := by
  unfold toInt32; omega

theorem toSizeT_nat (n : Nat) (h : n < 18446744073709551616) : toSizeT (n : Int) = n := by
  unfold toSizeT; omega

theorem splice_at_end (content : List Byte) (pos : Nat) (data : List Byte)
    (h : pos ≤ content.length) :
    splice (content.take pos) pos data = content.take pos ++ data := by
  unfold splice
  split
  · next hd => simp [hd]
  · have hl : (content.take pos).length = pos := by simp [h]
    have hd : List.drop (pos + data.length) (List.take pos content) = [] := by
      apply List.drop_eq_nil_of_le; omega
    simp [hl, hd, List.take_take]

theorem sys_read_full (S : FS) (a : Int) (f : OpenFile) (content : List Byte) (size : Nat)
    (hf : fdGet S.fds a = some f) (hw : f.wronly = false)
    (hc : S.files f.path = some content) (hr : S.rcap = []) :
    sys_read S a size =
      ⟨(((content.drop f.pos).take size).length : Int), (content.drop f.pos).take size,
        { S with
          fds := fdSet S.fds a
            (some { f with pos := f.pos + ((content.drop f.pos).take size).length }),
          rcap := [] }⟩ := by
  unfold sys_read
  rw [hf]
  simp only [hw, hc, hr]
  rfl

theorem sys_write_full (S : FS) (b : Int) (f : OpenFile) (content data : List Byte)
    (hf : fdGet S.fds b = some f) (hw : f.wronly = true) (ha : f.append = false)
    (hc : S.files f.path = some content) (hr : S.wcap = []) :
    sys_write S b data =
      ((data.length : Int),
        { S with
          files := fun q => if q = f.path then some (splice content f.pos data) else S.files q,
          fds := fdSet S.fds b (some { f with pos := f.pos + data.length }),
          wcap := [] }) := by
  unfold sys_write
  rw [hf]
  simp [hw, ha, hc, hr]

/-! ## Theorems: `open` -/

theorem sys_open_exists (st : FS) (p : String) (fl : OFlags) (c : List Byte)
    (h : st.files p = some c) :
    sys_open st p fl =
      (((installFd st.fds ⟨p, 0, fl.wronly, fl.append⟩).1 : Int),
        { st with fds := (installFd st.fds ⟨p, 0, fl.wronly, fl.append⟩).2 }) := by
  simp [sys_open, h]

theorem sys_open_absent (st : FS) (p : String) (fl : OFlags)
    (h : st.files p = none) (hc : fl.creat = false) :
    sys_open st p fl = (-1, st) := by
  simp [sys_open, h, hc]

theorem sys_open_creat (st : FS) (p : String) (fl : OFlags)
    (h : st.files p = none) (hc : fl.creat = true) :
    sys_open st p fl =
      (((installFd st.fds ⟨p, 0, fl.wronly, fl.append⟩).1 : Int),
        { st with
          files := fun q => if q = p then some [] else st.files q,
          fds := (installFd st.fds ⟨p, 0, fl.wronly, fl.append⟩).2 }) := by
  simp [sys_open, h, hc]

theorem sys_open_rdonly_files (st : FS) (q : String) :
    (sys_open st q O_RDONLY).2.files = st.files := by
  unfold sys_open
  split
  · rfl
  · simp [O_RDONLY]


/-! ## Theorems: the copy loop -/

/-- One round of the copy loop with full transfers: it moves the next
`min 1024 (length - pos)` bytes and goes on exactly when that is 1024. -/
theorem copy_loop_step (src dst : String) (content : List Byte) (a b : Int)
    (hab : a ≠ b) (hsd : src ≠ dst) (fuel : Nat) (S : FS) (pos : Nat)
    (hinv : CopyInv src dst content a b S pos) :
    ∃ S2, CopyInv src dst content a b S2 (pos + min 1024 (content.length - pos)) ∧
      copy_loop (fuel + 1) S a b (toInt32 pos) =
        if 1024 ≤ content.length - pos then
          copy_loop fuel S2 a b (toInt32 ((pos + min 1024 (content.length - pos) : Nat) : Int))
        else some (toInt32 content.length, S2) := by
  obtain ⟨hsrc, hdst, hfa, hfb, hr, hw, hpos⟩ := hinv
  have hlen : ((content.drop pos).take 1024).length = min 1024 (content.length - pos) := by
    simp
  have hR := sys_read_full S a ⟨src, pos, false, false⟩ content 1024 hfa rfl hsrc hr
  simp only at hR
  have htake : content.take pos ++ (content.drop pos).take 1024
      = content.take (pos + ((content.drop pos).take 1024).length) := by
    rw [hlen, List.take_add]
    congr 1
    have hdl : (content.drop pos).length = content.length - pos := by simp
    rcases Nat.le_total 1024 (content.length - pos) with h | h
    · rw [Nat.min_eq_left h]
    · rw [Nat.min_eq_right h, List.take_of_length_le (by omega),
        List.take_of_length_le (by omega)]
  rw [← hlen]
  generalize (content.drop pos).take 1024 = data at hR hlen htake
  have hl1 : data.length ≤ 1024 := by omega
  have hbr : toInt32 (data.length : Int) = data.length := toInt32_small _ (by omega) (by omega)
  have hsz : toSizeT (data.length : Int) = data.length := toSizeT_nat _ (by omega)
  have hfb1 : fdGet (fdSet S.fds a (some ⟨src, pos + data.length, false, false⟩)) b
      = some ⟨dst, pos, true, false⟩ := by
    rw [fdGet_fdSet_other _ _ _ _ (Ne.symm hab)]; exact hfb
  have hW := sys_write_full
    { S with fds := fdSet S.fds a (some ⟨src, pos + data.length, false, false⟩), rcap := [] }
    b ⟨dst, pos, true, false⟩ (content.take pos) data hfb1 rfl rfl hdst hw
  simp only at hW
  rw [splice_at_end _ _ _ hpos, htake] at hW
  have hcast : ((pos : Int) + (data.length : Int)) = ((pos + data.length : Nat) : Int) := by
    push_cast; rfl
  refine ⟨{ files := fun q =>
                if q = dst then some (content.take (pos + data.length)) else S.files q,
             fds := fdSet (fdSet S.fds a (some ⟨src, pos + data.length, false, false⟩)) b
                (some ⟨dst, pos + data.length, true, false⟩),
             rcap := [], wcap := [] }, ⟨?_, ?_, ?_, ?_, rfl, rfl, ?_⟩, ?_⟩
  · simp [hsd, hsrc]
  · simp
  · simp only
    rw [fdGet_fdSet_other _ _ _ _ hab]
    exact fdGet_fdSet_same _ _ _ _ hfa
  · simp only
    exact fdGet_fdSet_same _ _ _ _ hfb1
  · omega
  · rw [copy_loop]
    simp only [hR, hbr, hsz, List.take_length, hW, toInt32_add, hcast]
    by_cases h1024 : 1024 ≤ content.length - pos
    · have hd : data.length = 1024 := by omega
      simp only [h1024, if_true, hd]
      rw [if_pos (by rfl)]
    · have hd : data.length ≠ 1024 := by omega
      have hend : pos + data.length = content.length := by omega
      simp only [h1024, if_false, hend]
      rw [if_neg (by intro h; apply hd; exact_mod_cast h)]

/-- With full transfers the copy loop ends after `(length - pos) / 1024 + 1`
rounds, having made the destination equal to the source; the count it yields
is the size of the source as an `int`. -/
theorem copy_loop_full (src dst : String) (content : List Byte) (a b : Int)
    (hab : a ≠ b) (hsd : src ≠ dst) :
    ∀ (fuel : Nat) (S : FS) (pos : Nat), CopyInv src dst content a b S pos →
      (content.length - pos) / 1024 < fuel →
      ∃ S2, copy_loop fuel S a b (toInt32 pos) = some (toInt32 content.length, S2) ∧
        S2.files dst = some content ∧ S2.files src = some content := by
  intro fuel
  induction fuel with
  | zero => intro S pos _ hf; omega
  | succ fuel ih =>
    intro S pos hinv hfuel
    obtain ⟨S2, hinv2, hstep⟩ := copy_loop_step src dst content a b hab hsd fuel S pos hinv
    rw [hstep]
    by_cases h1024 : 1024 ≤ content.length - pos
    · simp only [h1024, if_true]
      exact ih S2 _ hinv2 (by omega)
    · simp only [h1024, if_false]
      obtain ⟨hs, hd, _, _, _, _, hp⟩ := hinv2
      have hend : pos + min 1024 (content.length - pos) = content.length := by omega
      rw [hend, List.take_of_length_le (Nat.le_refl _)] at hd
      exact ⟨S2, rfl, hd, hs⟩

/-- With fewer rounds than `(length - pos) / 1024 + 1` the copy loop has not
ended: the round after the last full chunk, which transfers what is left (no
byte at all when the size is a multiple of 1024), is always run. -/
theorem copy_loop_short (src dst : String) (content : List Byte) (a b : Int)
    (hab : a ≠ b) (hsd : src ≠ dst) :
    ∀ (fuel : Nat) (S : FS) (pos : Nat), CopyInv src dst content a b S pos →
      fuel ≤ (content.length - pos) / 1024 →
      copy_loop fuel S a b (toInt32 pos) = none := by
  intro fuel
  induction fuel with
  | zero => intro S pos _ _; rfl
  | succ fuel ih =>
    intro S pos hinv hfuel
    obtain ⟨S2, hinv2, hstep⟩ := copy_loop_step src dst content a b hab hsd fuel S pos hinv
    rw [hstep]
    have h1024 : 1024 ≤ content.length - pos := by omega
    simp only [h1024, if_true]
    exact ih S2 _ hinv2 (by omega)

/-- On an existing source and a destination that does not exist,
`fileman_copy` opens the source, creates the destination, and runs its loop
from the start of both files. -/
theorem copy_setup (st : FS) (src dst : String) (content : List Byte)
    (hsrc : st.files src = some content) (hdst : st.files dst = none)
    (hr : st.rcap = []) (hw : st.wcap = []) :
    ∃ (a b : Int) (S0 : FS), a ≠ b ∧ src ≠ dst ∧ CopyInv src dst content a b S0 0 ∧
      ∀ fuel, fileman_copy fuel st src dst =
        match copy_loop fuel S0 a b (toInt32 ((0 : Nat) : Int)) with
        | none => none
        | some (size_buf, st1) =>
          some ⟨toSizeT size_buf, sys_close (sys_close st1 a) b⟩ := by
  have hsd : src ≠ dst := by
    intro h; rw [h, hdst] at hsrc; cases hsrc
  have ho := sys_open_exists st src O_RDONLY content hsrc
  set fdsA := (installFd st.fds ⟨src, 0, false, false⟩).2 with hfdsA
  set a : Int := ((installFd st.fds ⟨src, 0, false, false⟩).1 : Int) with ha
  have ho2 : sys_open { st with fds := fdsA } dst O_WRONLY = (-1, { st with fds := fdsA }) :=
    sys_open_absent _ dst O_WRONLY hdst rfl
  have ho3 := sys_open_creat { st with fds := fdsA } dst (O_WRONLY.or O_CREAT) hdst rfl
  set b : Int := ((installFd fdsA ⟨dst, 0, true, false⟩).1 : Int) with hb
  have hga : fdGet fdsA a = some ⟨src, 0, false, false⟩ := fdGet_installFd_new _ _
  have hgb : fdGet fdsA b = none := fdGet_installFd_free _ _
  have hab : a ≠ b := by
    intro h; rw [h, hgb] at hga; cases hga
  have hgb2 : fdGet (installFd fdsA ⟨dst, 0, true, false⟩).2 b = some ⟨dst, 0, true, false⟩ :=
    fdGet_installFd_new _ _
  have hga2 : fdGet (installFd fdsA ⟨dst, 0, true, false⟩).2 a = some ⟨src, 0, false, false⟩ := by
    rw [fdGet_installFd_other _ _ _ hab]; exact hga
  have hz : toInt32 ((0 : Nat) : Int) = 0 := by decide
  have han : ¬ a < 0 := by omega
  have hbn : ¬ b < 0 := by omega
  refine ⟨a, b,
    { st with
      files := fun q => if q = dst then some [] else st.files q,
      fds := (installFd fdsA ⟨dst, 0, true, false⟩).2 },
    hab, hsd, ⟨by simp [hsd, hsrc], by simp, hga2, hgb2, hr, hw, Nat.zero_le _⟩, ?_⟩
  intro fuel
  rw [hz]
  unfold fileman_copy
  simp only [ho, O_RDONLY, O_WRONLY, OFlags.or, O_CREAT, Bool.or_false, Bool.or_true,
    Bool.false_or] at *
  simp only [han, if_false, ho2, ne_eq, not_true_eq_false, ho3, hbn]
  try rfl

/-- With full transfers, `fileman_copy` of an existing file to a fresh path
makes the destination equal to the source and returns the size of the source
as it comes out of the `int` accumulator. -/
theorem copy_full (st : FS) (src dst : String) (content : List Byte) (fuel : Nat)
    (hsrc : st.files src = some content) (hdst : st.files dst = none)
    (hr : st.rcap = []) (hw : st.wcap = []) (hfuel : content.length / 1024 < fuel) :
    ∃ r, fileman_copy fuel st src dst = some r ∧
      r.ret = toSizeT (toInt32 content.length) ∧
      r.st.files dst = some content ∧ r.st.files src = some content := by
  obtain ⟨a, b, S0, hab, hsd, hinv, hrun⟩ := copy_setup st src dst content hsrc hdst hr hw
  have hfuel0 : (content.length - 0) / 1024 < fuel := by
    rw [Nat.sub_zero]; exact hfuel
  obtain ⟨S2, hS2, hd, hs⟩ := copy_loop_full src dst content a b hab hsd fuel S0 0 hinv hfuel0
  have heq : fileman_copy fuel st src dst
      = some ⟨toSizeT (toInt32 content.length), sys_close (sys_close S2 a) b⟩ := by
    rw [hrun fuel, hS2]
  refine ⟨_, heq, ?_, ?_, ?_⟩
  · simp only
  · simpa [sys_close] using hd
  · simpa [sys_close] using hs

/-- With full transfers, `fileman_copy` needs all of its
`length / 1024 + 1` rounds. -/
theorem copy_needs_rounds (st : FS) (src dst : String) (content : List Byte) (fuel : Nat)
    (hsrc : st.files src = some content) (hdst : st.files dst = none)
    (hr : st.rcap = []) (hw : st.wcap = []) (hfuel : fuel ≤ content.length / 1024) :
    fileman_copy fuel st src dst = none := by
  obtain ⟨a, b, S0, hab, hsd, hinv, hrun⟩ := copy_setup st src dst content hsrc hdst hr hw
  have hfuel0 : fuel ≤ (content.length - 0) / 1024 := by
    rw [Nat.sub_zero]; exact hfuel
  rw [hrun fuel, copy_loop_short src dst content a b hab hsd fuel S0 0 hinv hfuel0]

/-! ## Theorems: write, then read -/

theorem installFd_fst_indep (fds : List (Option OpenFile)) (f g : OpenFile) :
    (installFd fds f).1 = (installFd fds g).1 := by
  induction fds with
  | nil => rfl
  | cons x rest ih =>
    cases x with
    | none => rfl
    | some h => simp [installFd, ih]

/-- Closing the descriptor that `open` has just handed out makes it the lowest
free one again. -/
theorem installFd_after_close (fds : List (Option OpenFile)) (f g : OpenFile) :
    (installFd ((installFd fds f).2.set (installFd fds f).1 none) g).1
      = (installFd fds f).1 := by
  induction fds with
  | nil => rfl
  | cons x rest ih =>
    cases x with
    | none => rfl
    | some h => simp [installFd, ih]

theorem slice_length (buf : Nat → Byte) (off size : Nat) : (slice buf off size).length = size := by
  simp [slice]

theorem slice_store (out : Nat → Byte) (off : Nat) (data : List Byte) :
    slice (store out off data) off data.length = data := by
  apply List.ext_getElem
  · simp [slice]
  · intro i h1 h2
    have hi : i < data.length := h2
    simp [slice, store, hi, List.getD_eq_getElem?_getD, List.getElem?_eq_getElem hi]

theorem sys_lseek_open (S : FS) (fd : Int) (f : OpenFile) (off : Nat)
    (hf : fdGet S.fds fd = some f) (hoff : off < 9223372036854775808) :
    sys_lseek S fd off = { S with fds := fdSet S.fds fd (some { f with pos := off }) } := by
  simp [sys_lseek, hf, hoff]

/-- What `fileman_write` does on a path that does not exist, when the write
is not cut short. -/
theorem fileman_write_fresh (st : FS) (p : String) (k n boffset : Nat) (buf : Nat → Byte)
    (hp : st.files p = none) (hw : st.wcap = [])
    (hk : k < 9223372036854775808) (hn : n < 2147483648) :
    fileman_write st p k buf boffset n =
      ⟨n, { st with
        files := fun q => if q = p then some (splice [] k (slice buf boffset n)) else st.files q,
        fds := (installFd st.fds ⟨p, 0, true, false⟩).2.set
          (installFd st.fds ⟨p, 0, true, false⟩).1 none,
        wcap := [] }⟩ := by
  have ho := sys_open_absent st p O_WRONLY hp rfl
  have ho2 := sys_open_creat st p (O_WRONLY.or O_CREAT) hp rfl
  simp only [O_WRONLY, O_CREAT, OFlags.or, Bool.or_false, Bool.or_true, Bool.false_or] at ho ho2
  set b := (installFd st.fds ⟨p, 0, true, false⟩).1 with hb
  set fds1 := (installFd st.fds ⟨p, 0, true, false⟩).2 with hfds1
  have hg1 : fdGet fds1 (b : Int) = some ⟨p, 0, true, false⟩ := fdGet_installFd_new _ _
  have hls := sys_lseek_open
    { st with files := fun q => if q = p then some [] else st.files q, fds := fds1 }
    (b : Int) ⟨p, 0, true, false⟩ k hg1 hk
  simp only at hls
  have hg2 : fdGet (fdSet fds1 (b : Int) (some ⟨p, k, true, false⟩)) (b : Int)
      = some ⟨p, k, true, false⟩ := fdGet_fdSet_same _ _ _ _ hg1
  have hwr := sys_write_full
    { st with
      files := fun q => if q = p then some [] else st.files q,
      fds := fdSet fds1 (b : Int) (some ⟨p, k, true, false⟩) }
    (b : Int) ⟨p, k, true, false⟩ [] (slice buf boffset n) hg2 rfl rfl (by simp) hw
  simp only [slice_length] at hwr
  have hi : toInt32 (n : Int) = n := toInt32_small _ (by omega) (by omega)
  have hs : toSizeT (n : Int) = n := toSizeT_nat _ (by omega)
  have hbn : ¬ ((b : Int) < 0) := by omega
  have hnn : ¬ ((n : Int) < 0) := by omega
  unfold fileman_write
  simp only [O_WRONLY, O_CREAT, OFlags.or, Bool.or_false, Bool.or_true, Bool.false_or]
  simp only [ho, ne_eq, not_true_eq_false, if_false, ho2, hbn, hls, hwr, hi, hs, hnn,
    or_self, sys_close]
  have hfiles : (fun q => if q = p then some (splice [] k (slice buf boffset n))
        else if q = p then some [] else st.files q)
      = (fun q => if q = p then some (splice [] k (slice buf boffset n)) else st.files q) := by
    funext q
    by_cases hq : q = p <;> simp [hq]
  have hfds : ∀ x y : Option OpenFile,
      fdSet (fdSet (fdSet fds1 (b : Int) x) (b : Int) y) (b : Int) none = fds1.set b none := by
    intro x y
    show ((fds1.set b x).set b y).set b none = fds1.set b none
    rw [List.set_set, List.set_set]
  rw [hfiles, hfds]

/-- What `fileman_read` does on a path that exists, when the descriptor it
obtains is not 0 and the read is not cut short. -/
theorem fileman_read_existing (S : FS) (p : String) (k n ooffset : Nat) (out : Nat → Byte)
    (content : List Byte) (hp : S.files p = some content) (hr : S.rcap = [])
    (hk : k < 9223372036854775808) (hn : n < 2147483648)
    (hfd : 0 < (installFd S.fds ⟨p, 0, false, false⟩).1) :
    (fileman_read S p k out ooffset n).ret = ((content.drop k).take n).length ∧
    (fileman_read S p k out ooffset n).buf = store out ooffset ((content.drop k).take n) := by
  have ho := sys_open_exists S p O_RDONLY content hp
  simp only [O_RDONLY] at ho
  set b := (installFd S.fds ⟨p, 0, false, false⟩).1 with hb
  set fds1 := (installFd S.fds ⟨p, 0, false, false⟩).2 with hfds1
  have hg1 : fdGet fds1 (b : Int) = some ⟨p, 0, false, false⟩ := fdGet_installFd_new _ _
  have hls := sys_lseek_open { S with fds := fds1 } (b : Int) ⟨p, 0, false, false⟩ k hg1 hk
  simp only at hls
  have hg2 : fdGet (fdSet fds1 (b : Int) (some ⟨p, k, false, false⟩)) (b : Int)
      = some ⟨p, k, false, false⟩ := fdGet_fdSet_same _ _ _ _ hg1
  have hrd := sys_read_full { S with fds := fdSet fds1 (b : Int) (some ⟨p, k, false, false⟩) }
    (b : Int) ⟨p, k, false, false⟩ content n hg2 rfl hp hr
  simp only at hrd
  have hlen : ((content.drop k).take n).length ≤ n := by simp
  have hi : toInt32 (((content.drop k).take n).length : Int) = ((content.drop k).take n).length :=
    toInt32_small _ (by omega) (by omega)
  have hs : toSizeT (((content.drop k).take n).length : Int) = ((content.drop k).take n).length :=
    toSizeT_nat _ (by omega)
  have hbp : (b : Int) > 0 := by omega
  unfold fileman_read
  simp only [O_RDONLY, ho, hbp, if_true, hls, hrd, hi, hs, and_self]

theorem splice_fresh (k : Nat) (data : List Byte) :
    ((splice [] k data).drop k).take data.length = data := by
  unfold splice
  split
  · next h => simp [h]
  · have h1 : (List.replicate k (0 : Byte)).length = k := List.length_replicate _ _
    simp only [List.nil_append, List.length_nil, Nat.sub_zero, List.drop_nil, List.append_nil]
    rw [List.take_of_length_le (Nat.le_of_eq h1), List.drop_left' h1, List.take_length]

/-- Offset round trip whenever the descriptor `open` hands out is not 0, the
offset fits `off_t`, the size fits `int` and the transfers are not cut
short. -/
theorem round_trip_positive_descriptor (st : FS) (p : String) (k n boffset ooffset : Nat)
    (buf out : Nat → Byte)
    (hp : st.files p = none) (hr : st.rcap = []) (hw : st.wcap = [])
    (hk : k < 9223372036854775808) (hn : n < 2147483648)
    (hfd : 0 < (installFd st.fds ⟨p, 0, true, false⟩).1) :
    (fileman_write st p k buf boffset n).ret = n ∧
    (fileman_read (fileman_write st p k buf boffset n).st p k out ooffset n).ret = n ∧
    slice (fileman_read (fileman_write st p k buf boffset n).st p k out ooffset n).buf ooffset n
      = slice buf boffset n := by
  rw [fileman_write_fresh st p k n boffset buf hp hw hk hn]
  have hfd2 : 0 < (installFd ((installFd st.fds ⟨p, 0, true, false⟩).2.set
      (installFd st.fds ⟨p, 0, true, false⟩).1 none) ⟨p, 0, false, false⟩).1 := by
    rw [installFd_after_close]; exact hfd
  obtain ⟨h1, h2⟩ := fileman_read_existing
    { st with
      files := fun q => if q = p then some (splice [] k (slice buf boffset n)) else st.files q,
      fds := (installFd st.fds ⟨p, 0, true, false⟩).2.set
        (installFd st.fds ⟨p, 0, true, false⟩).1 none,
      wcap := [] }
    p k n ooffset out (splice [] k (slice buf boffset n)) (by simp) hr hk hn hfd2
  have hsl := splice_fresh k (slice buf boffset n)
  rw [slice_length] at hsl
  simp only at h1 h2 ⊢
  rw [h1, h2, hsl]
  refine ⟨trivial, slice_length _ _ _, ?_⟩
  have := slice_store out ooffset (slice buf boffset n)
  rw [slice_length] at this
  exact this

/-! ## Theorems: the claims on the byte store -/

theorem installFd_fst_ne (fds : List (Option OpenFile)) (f : OpenFile) :
    ((installFd fds f).1 : Int) ≠ -1 := by
  omega

/-- C1 (no clobber). For every state and every path `p` that exists in it,
`fileman_write` on `p` returns the error value whatever the offsets, buffer
and size are, `fileman_copy` to `p` returns (before its loop, so with any
fuel) the error value whatever the source is, and after either call the
contents of `p` are the contents before it. -/
theorem no_clobber (st : FS) (p : String) (h : st.files p ≠ none) :
    (∀ foffset buf boffset size,
      (fileman_write st p foffset buf boffset size).ret = ERR ∧
      (fileman_write st p foffset buf boffset size).st.files p = st.files p) ∧
    (∀ fuel src, ∃ r, fileman_copy fuel st src p = some r ∧ r.ret = ERR ∧
      r.st.files p = st.files p) := by
  obtain ⟨c, hc⟩ := Option.ne_none_iff_exists'.mp h
  constructor
  · intro foffset buf boffset size
    have ho := sys_open_exists st p O_WRONLY c hc
    simp [fileman_write, ho, installFd_fst_ne, sys_close, hc]
  · intro fuel src
    unfold fileman_copy
    simp only
    split
    · exact ⟨_, rfl, rfl, by simp [sys_close, sys_open_rdonly_files]⟩
    · have hc2 : (sys_open st src O_RDONLY).2.files p = some c := by
        rw [sys_open_rdonly_files]; exact hc
      have ho := sys_open_exists (sys_open st src O_RDONLY).2 p O_WRONLY c hc2
      simp only [ho, installFd_fst_ne, ne_eq, not_false_eq_true, if_true]
      exact ⟨_, rfl, rfl, by simp [sys_close, sys_open_rdonly_files]⟩

/-- C1 at the example state: writing to the existing ten-byte file `src`
fails and leaves it alone. -/
theorem no_clobber_witness :
    exState.files "src" ≠ none ∧
    (fileman_write exState "src" 0 (fun _ => 7) 0 3).ret = ERR ∧
    (fileman_write exState "src" 0 (fun _ => 7) 0 3).st.files "src" = exState.files "src" :=
  ⟨by decide, (no_clobber exState "src" (by decide)).1 0 (fun _ => 7) 0 3⟩

/-- Copy fidelity below 2 GiB: with full transfers, `fileman_copy` of an
existing file of fewer than `2^31` bytes to a path that does not exist
returns, after `length / 1024 + 1` rounds of its loop, the size of the source,
and the destination then holds the bytes of the source. When the size is a
multiple of 1024 the last of these rounds transfers nothing. -/
theorem copy_fidelity_bounded (st : FS) (src dst : String) (content : List Byte) (fuel : Nat)
    (hsrc : st.files src = some content) (hdst : st.files dst = none)
    (hr : st.rcap = []) (hw : st.wcap = []) (hfuel : content.length / 1024 < fuel)
    (hn : content.length < 2147483648) :
    ∃ r, fileman_copy fuel st src dst = some r ∧ r.ret = content.length ∧
      r.st.files dst = some content := by
  obtain ⟨r, h1, h2, h3, _⟩ := copy_full st src dst content fuel hsrc hdst hr hw hfuel
  refine ⟨r, h1, ?_, h3⟩
  rw [h2, toInt32_small _ (by omega) (by omega), toSizeT_nat _ (by omega)]

/-- Copy of a file whose size is a multiple of 1024, below 2 GiB: with `m`
full chunks the loop runs `m + 1` rounds, not `m`; the extra round reads and
writes no byte, and the count and the destination are those of the source. -/
theorem copy_exact_multiple (st : FS) (src dst : String) (content : List Byte) (m : Nat)
    (hsrc : st.files src = some content) (hdst : st.files dst = none)
    (hr : st.rcap = []) (hw : st.wcap = []) (hlen : content.length = 1024 * m)
    (hn : content.length < 2147483648) :
    fileman_copy m st src dst = none ∧
    ∃ r, fileman_copy (m + 1) st src dst = some r ∧ r.ret = content.length ∧
      r.st.files dst = some content := by
  have hdiv : content.length / 1024 = m := by omega
  exact ⟨copy_needs_rounds st src dst content m hsrc hdst hr hw (by omega),
    copy_fidelity_bounded st src dst content (m + 1) hsrc hdst hr hw (by omega) hn⟩

/-- C2 (copy fidelity) fails from 2 GiB on. A source of `2^31` zero bytes is
copied byte for byte (with full transfers, in `2^21 + 1` rounds), but the
count comes out of the `int` accumulator `size_buf` as `-2^31` and is
returned, through `size_t`, as `2^64 - 2^31`, not as the size `2^31`. -/
theorem copy_count_wraps :
    ∃ r, fileman_copy 2097153 hugeState "src" "dst" = some r ∧
      r.ret = 18446744071562067968 ∧
      r.st.files "dst" = some (List.replicate 2147483648 0) := by
  have hsrc : hugeState.files "src" = some (List.replicate 2147483648 0) := rfl
  have hdst : hugeState.files "dst" = none := rfl
  have hlen : (List.replicate 2147483648 (0 : Byte)).length = 2147483648 :=
    List.length_replicate _ _
  obtain ⟨r, h1, h2, h3, _⟩ := copy_full hugeState "src" "dst" _ 2097153 hsrc hdst rfl rfl
    (by rw [hlen]; decide)
  refine ⟨r, h1, ?_, h3⟩
  rw [h2, hlen]
  decide

/-- C3 (a short write is a failure) fails. The source holds ten bytes, the
one read obtains all ten, the write transfers four of them, and
`fileman_copy` returns the count 4, not the error value; the destination is
left with four bytes. -/
theorem copy_short_write_unreported :
    exState.files "src" = some [1, 2, 3, 4, 5, 6, 7, 8, 9, 10] ∧
    (sys_read (sys_open shortWriteState "src" O_RDONLY).2 3 1024).ret = 10 ∧
    (fileman_copy 2 shortWriteState "src" "dst").map (fun r => (r.ret, r.st.files "dst"))
      = some (4, some [1, 2, 3, 4]) ∧
    (4 : Nat) ≠ ERR := by
  decide

/-- C4 (offset round trip, for every descriptor number) fails at descriptor
0. In a process whose descriptor 0 is closed, four bytes are written at
offset 3 of the new file `new` and the write returns 4; the `open` inside
`fileman_read` then returns descriptor 0 and `fileman_read` returns the error
value. -/
theorem read_fails_on_descriptor_zero :
    noStdin.files "new" = none ∧
    (fileman_write noStdin "new" 3 (fun i => i + 10) 2 4).ret = 4 ∧
    (fileman_write noStdin "new" 3 (fun i => i + 10) 2 4).st.files "new"
      = some [0, 0, 0, 12, 13, 14, 15] ∧
    (sys_open (fileman_write noStdin "new" 3 (fun i => i + 10) 2 4).st "new" O_RDONLY).1 = 0 ∧
    (fileman_read (fileman_write noStdin "new" 3 (fun i => i + 10) 2 4).st "new" 3
      (fun _ => 0) 0 4).ret = ERR := by
  decide

/-- C10 (descriptors are released on every exit path) fails. A successful
`fileman_read` returns with the descriptor it opened (number 3 here) still
open, and `fileman_copy` onto an existing destination returns the error value
with the descriptor of the source still open. -/
theorem descriptors_left_open :
    (fileman_read exState "src" 0 (fun _ => 0) 0 4).ret = 4 ∧
    (fileman_read exState "src" 0 (fun _ => 0) 0 4).st.fds
      = exState.fds ++ [some ⟨"src", 4, false, false⟩] ∧
    (fileman_copy 1 exState "src" "src").map (fun r => (r.ret, r.st.fds))
      = some (ERR, exState.fds ++ [some ⟨"src", 0, false, false⟩, none]) := by
  decide

/-! ## Theorems: trees, sorting, text -/

/-! ### Induction over trees -/

theorem node_induction (P : Node → Prop) (hfile : ∀ n, P (.file n))
    (hdir : ∀ n e l ks, (∀ k ∈ ks, P k) → P (.dir n e l ks)) : ∀ t, P t := by
  intro t
  exact @Node.rec P (fun ks => ∀ k ∈ ks, P k)
    hfile (fun n e l ks ih => hdir n e l ks ih)
    (fun k hk => by cases hk)
    (fun k ks hk hks x hx => by
      rcases List.mem_cons.mp hx with h | h
      · exact h ▸ hk
      · exact hks x h) t

/-! ### Sorting -/

theorem mem_insertOn {α : Type} (key : α → String) (a x : α) (l : List α) :
    x ∈ insertOn key a l ↔ x = a ∨ x ∈ l := by
  induction l with
  | nil => simp [insertOn]
  | cons b l ih =>
    unfold insertOn
    split
    · simp
    · simp [ih]; tauto

theorem mem_sortOn {α : Type} (key : α → String) (x : α) (l : List α) :
    x ∈ sortOn key l ↔ x ∈ l := by
  induction l with
  | nil => simp [sortOn]
  | cons b l ih => simp [sortOn, mem_insertOn, ih]

theorem filter_insertOn_of_neg {α : Type} (p : α → Bool) (key : α → String) (a : α)
    (l : List α) (h : p a = false) : (insertOn key a l).filter p = l.filter p := by
  induction l with
  | nil => simp [insertOn, h]
  | cons b l ih =>
    unfold insertOn
    split
    · simp [List.filter_cons, h]
    · simp [List.filter_cons, ih]

theorem insertOn_map {α β : Type} (f : α → β) (keyA : α → String) (keyB : β → String)
    (hkey : ∀ x, keyB (f x) = keyA x) (a : α) (l : List α) :
    insertOn keyB (f a) (l.map f) = (insertOn keyA a l).map f := by
  induction l with
  | nil => simp [insertOn]
  | cons b l ih =>
    simp only [List.map_cons, insertOn, hkey]
    split
    · simp
    · simp [ih]

theorem sortOn_map {α β : Type} (f : α → β) (keyA : α → String) (keyB : β → String)
    (hkey : ∀ x, keyB (f x) = keyA x) (l : List α) :
    sortOn keyB (l.map f) = (sortOn keyA l).map f := by
  induction l with
  | nil => simp [sortOn]
  | cons b l ih => simp only [List.map_cons, sortOn, ih, insertOn_map f keyA keyB hkey]

/-! ### Trees -/

theorem walkableKids_iff (ks : List Node) :
    walkableKids ks = true ↔ ∀ k ∈ ks, walkable k = true := by
  induction ks with
  | nil => simp [walkableKids]
  | cons k ks ih => simp [walkableKids, ih]

theorem walkable_dir (n : String) (e l : Bool) (ks : List Node) :
    walkable (.dir n e l ks) = true ↔
      e = true ∧ l = true ∧ (ks.map Node.name).Nodup ∧
      (∀ k ∈ ks, k.name ≠ "." ∧ k.name ≠ "..") ∧ ∀ k ∈ ks, walkable k = true := by
  simp [walkable, walkableKids_iff, and_assoc]

theorem height_le_of_mem (ks : List Node) (k : Node) (hk : k ∈ ks) :
    height k ≤ heightKids ks := by
  induction ks with
  | nil => cases hk
  | cons x ks ih =>
    simp only [heightKids]
    rcases List.mem_cons.mp hk with h | h
    · subst h; exact Nat.le_max_left _ _
    · exact Nat.le_trans (ih h) (Nat.le_max_right _ _)

theorem flatKids_eq_map (d : Nat) (ks : List Node) :
    flatKids d ks = ks.map (fun k => (k.name, flatNode d k)) := by
  induction ks with
  | nil => simp [flatKids]
  | cons k ks ih => simp [flatKids, ih]

theorem dirent_name (k : Node) : k.dirent.d_name = k.name := by
  cases k <;> rfl

theorem resolve_append (root : Node) (p q : List String) :
    resolve root (p ++ q) = (resolve root p).bind (fun n => resolve n q) := by
  induction p generalizing root with
  | nil => simp [resolve]
  | cons c cs ih =>
    simp only [List.cons_append, resolve]
    split
    · exact ih _
    · rfl

theorem find_of_mem_nodup (ks : List Node) (k : Node) (hk : k ∈ ks)
    (hn : (ks.map Node.name).Nodup) :
    ks.find? (fun x => decide (x.name = k.name)) = some k := by
  induction ks with
  | nil => cases hk
  | cons x ks ih =>
    rw [List.map_cons, List.nodup_cons] at hn
    rcases List.mem_cons.mp hk with h | h
    · subst h; simp
    · have hne : x.name ≠ k.name := by
        intro he; apply hn.1; rw [he]; exact List.mem_map_of_mem _ h
      simp [List.find?_cons, hne, ih h hn.2]

/-! ### Text -/

theorem indent_loop_eq (n : Nat) (out : String) :
    indent_loop n out = out ++ String.mk (List.replicate (4 * n) ' ') := by
  induction n generalizing out with
  | zero => apply String.ext; simp [indent_loop]
  | succ n ih =>
    rw [indent_loop, ih]
    apply String.ext
    have : 4 * (n + 1) = 4 + 4 * n := by ring
    simp [this, List.replicate_add]

theorem strcmp_le_total : ∀ a b : List Char, strcmp_le a b = true ∨ strcmp_le b a = true
  | [], _ => Or.inl rfl
  | _ :: _, [] => Or.inr rfl
  | a :: as, b :: bs => by
    simp only [strcmp_le]
    by_cases h1 : a.toNat < b.toNat
    · simp [h1]
    · by_cases h2 : b.toNat < a.toNat
      · simp [h2]
      · simp only [h1, h2, if_false]
        exact strcmp_le_total as bs

theorem strcmp_le_trans : ∀ a b c : List Char,
    strcmp_le a b = true → strcmp_le b c = true → strcmp_le a c = true
  | [], _, _ => fun _ _ => rfl
  | _ :: _, [], _ => fun h _ => by simp [strcmp_le] at h
  | _ :: _, _ :: _, [] => fun _ h => by simp [strcmp_le] at h
  | a :: as, b :: bs, c :: cs => by
    intro hab hbc
    simp only [strcmp_le] at hab hbc ⊢
    by_cases h1 : a.toNat < b.toNat
    · by_cases h3 : b.toNat < c.toNat
      · have : a.toNat < c.toNat := by omega
        simp [this]
      · by_cases h4 : c.toNat < b.toNat
        · simp [h3, h4] at hbc
        · have : a.toNat < c.toNat := by omega
          simp [this]
    · by_cases h2 : b.toNat < a.toNat
      · simp [h1, h2] at hab
      · simp only [h1, h2, if_false] at hab
        by_cases h3 : b.toNat < c.toNat
        · have : a.toNat < c.toNat := by omega
          simp [this]
        · by_cases h4 : c.toNat < b.toNat
          · simp [h3, h4] at hbc
          · simp only [h3, h4, if_false] at hbc
            have h5 : ¬ a.toNat < c.toNat := by omega
            have h6 : ¬ c.toNat < a.toNat := by omega
            simp only [h5, h6, if_false]
            exact strcmp_le_trans as bs cs hab hbc

theorem perm_insertOn {α : Type} (key : α → String) (a : α) (l : List α) :
    (insertOn key a l).Perm (a :: l) := by
  induction l with
  | nil => exact List.Perm.refl _
  | cons b l ih =>
    unfold insertOn
    split
    · exact List.Perm.refl _
    · exact (List.Perm.cons b ih).trans (List.Perm.swap a b l)

/-- The sort of `scandir` keeps every entry, once. -/
theorem perm_sortOn {α : Type} (key : α → String) (l : List α) : (sortOn key l).Perm l := by
  induction l with
  | nil => exact List.Perm.refl _
  | cons a l ih => exact (perm_insertOn key a _).trans (List.Perm.cons a ih)

theorem sorted_insertOn {α : Type} (key : α → String) (a : α) (l : List α)
    (h : l.Pairwise (fun x y => strcmp_le (key x).data (key y).data = true)) :
    (insertOn key a l).Pairwise (fun x y => strcmp_le (key x).data (key y).data = true) := by
  induction l with
  | nil => simp [insertOn]
  | cons b l ih =>
    rw [List.pairwise_cons] at h
    unfold insertOn
    split
    · next hab =>
      rw [List.pairwise_cons]
      refine ⟨fun x hx => ?_, List.pairwise_cons.mpr h⟩
      rcases List.mem_cons.mp hx with hx | hx
      · rw [hx]; exact hab
      · exact strcmp_le_trans _ _ _ hab (h.1 x hx)
    · next hab =>
      have hba : strcmp_le (key b).data (key a).data = true := by
        rcases strcmp_le_total (key a).data (key b).data with h1 | h1
        · exact absurd h1 hab
        · exact h1
      rw [List.pairwise_cons]
      refine ⟨fun x hx => ?_, ih h.2⟩
      rcases (mem_insertOn key a x l).mp hx with hx | hx
      · rw [hx]; exact hba
      · exact h.1 x hx

/-- The sort of `scandir` puts the entries in name order. -/
theorem sorted_sortOn {α : Type} (key : α → String) (l : List α) :
    (sortOn key l).Pairwise (fun x y => strcmp_le (key x).data (key y).data = true) := by
  induction l with
  | nil => simp [sortOn]
  | cons a l ih => exact sorted_insertOn key a _ ih

/-! ## Theorems: the flat listing -/

theorem chdir_dotdot (root : Node) (cwd : List String) :
    chdir root cwd ".." = cwd.dropLast := by
  simp [chdir]

theorem chdir_kid (root : Node) (cwd : List String) (n : String) (e l : Bool)
    (ks : List Node) (k : Node) (hres : resolve root cwd = some (.dir n e l ks))
    (hk : k ∈ ks) (hn : (ks.map Node.name).Nodup) :
    resolve root (cwd ++ [k.name]) = some k := by
  rw [resolve_append, hres]
  simp [resolve, Node.kids, find_of_mem_nodup ks k hk hn]

theorem real_iff (e : Dirent) : e.real = true ↔ ¬ (e.d_name = "." ∨ e.d_name = "..") := by
  simp [Dirent.real]

/-- The pseudo-entries are passed over by the loop of `get_dir`. -/
theorem dir_entries_filter (root : Node) (self : Walk → String → Nat → Option Walk)
    (level : Nat) (es : List Dirent) (w : Walk) :
    dir_entries root self es w level =
      dir_entries root self (es.filter Dirent.real) w level := by
  induction es generalizing w with
  | nil => rfl
  | cons e es ih =>
    by_cases hp : e.d_name = "." ∨ e.d_name = ".."
    · have hf : ¬ (e.real = true) := by rw [real_iff]; exact not_not.mpr hp
      rw [List.filter_cons_of_neg hf, ← ih]
      simp [dir_entries, hp]
    · have hf : e.real = true := by rw [real_iff]; exact hp
      rw [List.filter_cons_of_pos hf]
      simp only [dir_entries, hp, if_false]
      split
      · split
        · rfl
        · exact ih _
      · exact ih _

theorem joinAll_cons (s : String) (l : List String) : joinAll (s :: l) = s ++ joinAll l := rfl

theorem append_empty (s : String) : s ++ "" = s := by
  apply String.ext; simp

/-- The loop of `get_dir` over the entries of a listable directory whose
subdirectories `self` lists correctly. -/
theorem dir_entries_walk (root : Node) (self : Walk → String → Nat → Option Walk)
    (cwd : List String) (level : Nat) (ks : List Node)
    (hnames : ∀ k ∈ ks, k.name ≠ "." ∧ k.name ≠ "..")
    (hself : ∀ k ∈ ks, k.isDir = true → ∀ out,
      self ⟨cwd, out⟩ k.name (level + 1)
        = some ⟨cwd ++ [k.name], out ++ flatBelow (level + 1) k⟩) :
    ∀ (l : List Node), (∀ k ∈ l, k ∈ ks) → ∀ out,
      dir_entries root self (l.map Node.dirent) ⟨cwd, out⟩ level
        = some ⟨cwd, out ++ joinAll (l.map (flatNode level))⟩ := by
  intro l
  induction l with
  | nil => intro _ out; simp [dir_entries, joinAll, append_empty]
  | cons k l ih =>
    intro hl out
    have hk : k ∈ ks := hl k (List.mem_cons_self _ _)
    have hl2 : ∀ x ∈ l, x ∈ ks := fun x hx => hl x (List.mem_cons_of_mem _ hx)
    have hnp : ¬ (k.dirent.d_name = "." ∨ k.dirent.d_name = "..") := by
      rw [dirent_name]; have := hnames k hk; tauto
    simp only [List.map_cons, dir_entries, hnp, if_false, joinAll_cons]
    cases k with
    | file n =>
      simp only [Node.dirent, flatNode, flatLine, indent_loop_eq]
      rw [if_neg (by decide), ih hl2]
      simp [String.append_assoc]
    | dir n e ls kids =>
      have hs := hself _ hk rfl
      simp only [Node.name] at hs
      simp only [Node.dirent, if_true, hs, chdir_dotdot, List.dropLast_concat]
      rw [ih hl2]
      simp [flatNode, flatBelow, flatLine, indent_loop_eq, Node.kids, String.append_assoc]

theorem scandir_real (ks : List Node) (hnames : ∀ k ∈ ks, k.name ≠ "." ∧ k.name ≠ "..") :
    (sortOn Dirent.d_name
      (⟨".", DType.DT_DIR⟩ :: ⟨"..", DType.DT_DIR⟩ :: ks.map Node.dirent)).filter Dirent.real
      = (sortOn Node.name ks).map Node.dirent := by
  simp only [sortOn]
  rw [filter_insertOn_of_neg _ _ _ _ (by decide), filter_insertOn_of_neg _ _ _ _ (by decide),
    sortOn_map Node.dirent Node.name Dirent.d_name dirent_name]
  apply List.filter_eq_self.mpr
  intro e he
  obtain ⟨k, hk, rfl⟩ := List.mem_map.mp he
  rw [real_iff, dirent_name]
  have := hnames k ((mem_sortOn _ _ _).mp hk)
  tauto

theorem flatBelow_eq (level : Nat) (t : Node) :
    flatBelow level t = joinAll ((sortOn Node.name t.kids).map (flatNode level)) := by
  unfold flatBelow
  rw [flatKids_eq_map,
    sortOn_map (fun k => (k.name, flatNode level k)) Node.name Prod.fst (fun _ => rfl),
    List.map_map]
  rfl

theorem chdir_into (root : Node) (cwd : List String) (n : String) (e l : Bool)
    (ks : List Node) (k : Node) (hres : resolve root cwd = some (.dir n e l ks))
    (hk : k ∈ ks) (hn : (ks.map Node.name).Nodup)
    (hnames : k.name ≠ "." ∧ k.name ≠ "..") (hd : k.isDir = true) (hw : walkable k = true) :
    chdir root cwd k.name = cwd ++ [k.name] := by
  have hr := chdir_kid root cwd n e l ks k hres hk hn
  cases k with
  | file m => cases hd
  | dir m e2 l2 ks2 =>
    have he : e2 = true := ((walkable_dir m e2 l2 ks2).mp hw).1
    subst he
    simp only [Node.name] at hr hnames ⊢
    simp [chdir, hnames.1, hnames.2, hr]

/-- On a tree whose directories can all be entered and listed, `get_dir`
returns, with the working directory inside the directory it was sent to, and
has written the flat form of everything below that directory. -/
theorem get_dir_walk (root : Node) :
    ∀ t, walkable t = true → t.isDir = true →
      ∀ (fuel : Nat) (cwd : List String) (dname out : String) (level : Nat),
        resolve root (chdir root cwd dname) = some t → height t ≤ fuel →
        get_dir root fuel ⟨cwd, out⟩ dname level
          = some ⟨chdir root cwd dname, out ++ flatBelow level t⟩ := by
  intro t
  induction t using node_induction with
  | hfile n => intro _ hd; cases hd
  | hdir n e l ks ih =>
    intro hw _ fuel cwd dname out level hres hfuel
    obtain ⟨_, hl, hnodup, hnames, hkids⟩ := (walkable_dir n e l ks).mp hw
    subst hl
    cases fuel with
    | zero => simp [height] at hfuel
    | succ f =>
      have hf : heightKids ks ≤ f := by simp only [height] at hfuel; omega
      have hscan : scandir root (chdir root cwd dname)
          = some (sortOn Dirent.d_name
              (⟨".", DType.DT_DIR⟩ :: ⟨"..", DType.DT_DIR⟩ :: ks.map Node.dirent)) := by
        simp [scandir, hres]
      simp only [get_dir, hscan]
      rw [dir_entries_filter, scandir_real ks hnames, flatBelow_eq]
      apply dir_entries_walk root (get_dir root f) (chdir root cwd dname) level ks hnames
      · intro k hk hd out2
        have hcd := chdir_into root _ n e true ks k hres hk hnodup (hnames k hk) hd (hkids k hk)
        have := ih k hk (hkids k hk) hd f (chdir root cwd dname) k.name out2 (level + 1)
          (by rw [hcd]; exact chdir_kid root _ n e true ks k hres hk hnodup)
          (Nat.le_trans (height_le_of_mem ks k hk) hf)
        rw [this, hcd]
      · intro k hk
        exact (mem_sortOn _ _ _).mp hk

/-! ## Theorems: the tree view -/

theorem tree_unit_congr (a b : Nat → Bool) (level : Nat) (last : Bool) (j : Nat)
    (h : j ≠ level → a j = b j) : tree_unit a level last j = tree_unit b level last j := by
  unfold tree_unit
  by_cases hj : j = level
  · simp [hj]
  · simp [hj, h hj]

theorem foldl_units_congr (a b : Nat → Bool) (level : Nat) (last : Bool) (js : List Nat)
    (h : ∀ j ∈ js, j ≠ level → a j = b j) (out : String) :
    js.foldl (fun o j => o ++ tree_unit a level last j) out
      = js.foldl (fun o j => o ++ tree_unit b level last j) out := by
  induction js generalizing out with
  | nil => rfl
  | cons j js ih =>
    simp only [List.foldl_cons]
    rw [tree_unit_congr a b level last j (h j (List.mem_cons_self _ _))]
    exact ih (fun x hx => h x (List.mem_cons_of_mem _ hx)) _

/-- The guides of a line depend on the cells below `level` only. -/
theorem guide_loop_congr (a b : Nat → Bool) (level : Nat) (last : Bool) (out : String)
    (h : ∀ j, j < level → a j = b j) :
    guide_loop a level last out = guide_loop b level last out := by
  unfold guide_loop
  apply foldl_units_congr
  intro j hj hne
  have : j < level + 1 := List.mem_range.mp hj
  exact h j (by omega)

/-- The loop of `get_tree` against the loop with flags passed by value. -/
theorem tree_entries_scoped (root : Node) (self : TWalk → String → Nat → Option TWalk)
    (selfS : Walk → (Nat → Bool) → String → Nat → Option Walk) (level : Nat)
    (hself : ∀ (w : TWalk) (dname : String) (r : TWalk),
      self w dname (level + 1) = some r →
        (∀ j, j < level + 1 → r.anc j = w.anc j) ∧
        ∀ flags : Nat → Bool, (∀ j, j < level + 1 → flags j = w.anc j) →
          selfS ⟨w.cwd, w.out⟩ flags dname (level + 1) = some ⟨r.cwd, r.out⟩) :
    ∀ (es : List Dirent) (w r : TWalk), tree_entries root self es w level = some r →
      (∀ j, j < level → r.anc j = w.anc j) ∧
      ∀ flags : Nat → Bool, (∀ j, j < level → flags j = w.anc j) →
        scoped_entries root selfS es ⟨w.cwd, w.out⟩ flags level = some ⟨r.cwd, r.out⟩ := by
  intro es
  induction es with
  | nil =>
    intro w r h
    simp only [tree_entries, Option.some.injEq] at h
    subst h
    exact ⟨fun _ _ => rfl, fun _ _ => rfl⟩
  | cons e es ih =>
    intro w r h
    unfold tree_entries at h
    by_cases hlev : level < 100
    · simp only [hlev, if_true] at h
      by_cases hp : e.d_name = "." ∨ e.d_name = ".."
      · simp only [hp, if_true] at h
        obtain ⟨h1, h2⟩ := ih _ r h
        refine ⟨fun j hj => ?_, fun flags hfl => ?_⟩
        · rw [h1 j hj]; simp [Nat.ne_of_lt hj]
        · simp only [scoped_entries, hp, if_true]
          exact h2 flags (fun j hj => by rw [hfl j hj]; simp [Nat.ne_of_lt hj])
      · simp only [hp, if_false] at h
        by_cases hd : e.d_type = DType.DT_DIR
        · simp only [hd, if_true] at h
          split at h
          · cases h
          · next w2 hw2 =>
            obtain ⟨hs1, hs2⟩ := hself _ _ _ hw2
            obtain ⟨h1, h2⟩ := ih _ r h
            refine ⟨fun j hj => ?_, fun flags hfl => ?_⟩
            · rw [h1 j hj]
              simp only
              rw [hs1 j (by omega)]
              simp [Nat.ne_of_lt hj]
            · simp only [scoped_entries, hp, if_false, hd, if_true]
              have hg : guide_loop flags level es.isEmpty w.out
                  = guide_loop (fun k => if k = level then !es.isEmpty else w.anc k) level
                      es.isEmpty w.out :=
                guide_loop_congr _ _ _ _ _
                  (fun j hj => by rw [hfl j hj]; simp [Nat.ne_of_lt hj])
              rw [hg]
              have := hs2 (fun k => if k = level then !es.isEmpty else flags k)
                (fun j hj => by
                  by_cases hjl : j = level
                  · simp [hjl]
                  · simp only [hjl, if_false]; exact hfl j (by omega))
              simp only at this
              rw [this]
              simp only
              apply h2
              intro j hj
              simp only
              rw [hs1 j (by omega), hfl j hj]
              simp [Nat.ne_of_lt hj]
        · simp only [hd, if_false] at h
          obtain ⟨h1, h2⟩ := ih _ r h
          refine ⟨fun j hj => ?_, fun flags hfl => ?_⟩
          · rw [h1 j hj]; simp [Nat.ne_of_lt hj]
          · simp only [scoped_entries, hp, if_false, hd]
            have hg : guide_loop flags level es.isEmpty w.out
                = guide_loop (fun k => if k = level then !es.isEmpty else w.anc k) level
                    es.isEmpty w.out :=
              guide_loop_congr _ _ _ _ _
                (fun j hj => by rw [hfl j hj]; simp [Nat.ne_of_lt hj])
            rw [hg]
            exact h2 flags (fun j hj => by rw [hfl j hj]; simp [Nat.ne_of_lt hj])
    · simp [hlev] at h

theorem get_tree_scoped_eq (root : Node) :
    ∀ (fuel : Nat) (level : Nat) (w : TWalk) (dname : String) (r : TWalk),
      get_tree root fuel w dname level = some r →
        (∀ j, j < level → r.anc j = w.anc j) ∧
        ∀ flags : Nat → Bool, (∀ j, j < level → flags j = w.anc j) →
          get_tree_scoped root fuel ⟨w.cwd, w.out⟩ flags dname level = some ⟨r.cwd, r.out⟩ := by
  intro fuel
  induction fuel with
  | zero => intro level w dname r h; simp [get_tree] at h
  | succ fuel ih =>
    intro level w dname r h
    unfold get_tree at h
    simp only at h
    split at h
    · next hscan =>
      simp only [Option.some.injEq] at h
      subst h
      refine ⟨fun _ _ => rfl, fun flags _ => ?_⟩
      simp [get_tree_scoped, hscan]
    · next flist hscan =>
      obtain ⟨h1, h2⟩ := tree_entries_scoped root (get_tree root fuel)
        (get_tree_scoped root fuel) level (fun w2 d2 r2 => ih (level + 1) w2 d2 r2) flist _ r h
      refine ⟨h1, fun flags hfl => ?_⟩
      simp only [get_tree_scoped, hscan]
      exact h2 flags hfl

/-- The loop of `get_tree` returns on the entries of a directory whose
subdirectories `self` returns on. -/
theorem tree_entries_returns (root : Node) (self : TWalk → String → Nat → Option TWalk)
    (cwd : List String) (level : Nat) (hlev : level < 100) (ks : List Node)
    (hself : ∀ k ∈ ks, k.isDir = true → ∀ w : TWalk, w.cwd = cwd →
      ∃ r, self w k.name (level + 1) = some r ∧ r.cwd = cwd ++ [k.name]) :
    ∀ (es : List Dirent), (∀ e ∈ es, e.real = false ∨ ∃ k ∈ ks, e = k.dirent) →
      ∀ w : TWalk, w.cwd = cwd →
        ∃ r, tree_entries root self es w level = some r ∧ r.cwd = cwd := by
  intro es
  induction es with
  | nil => intro _ w hw; exact ⟨w, rfl, hw⟩
  | cons e es ih =>
    intro hes w hw
    have hes2 : ∀ x ∈ es, x.real = false ∨ ∃ k ∈ ks, x = k.dirent :=
      fun x hx => hes x (List.mem_cons_of_mem _ hx)
    unfold tree_entries
    simp only [hlev, if_true]
    by_cases hp : e.d_name = "." ∨ e.d_name = ".."
    · simp only [hp, if_true]
      exact ih hes2 _ hw
    · simp only [hp, if_false]
      rcases hes e (List.mem_cons_self _ _) with hr | ⟨k, hk, rfl⟩
      · have := (real_iff e).mpr hp
        rw [hr] at this; cases this
      · cases k with
        | file n =>
          simp only [Node.dirent]
          rw [if_neg (by decide)]
          exact ih hes2 _ hw
        | dir n e2 l2 ks2 =>
          simp only [Node.dirent, if_true]
          obtain ⟨r2, hr2, hc2⟩ := hself _ hk rfl
            { cwd := w.cwd,
              out := guide_loop (fun k => if k = level then !es.isEmpty else w.anc k) level
                es.isEmpty w.out ++ n ++ "\n",
              anc := fun k => if k = level then !es.isEmpty else w.anc k } hw
          simp only [Node.name] at hr2 hc2
          simp only [hr2]
          apply ih hes2
          simp only [hc2, chdir_dotdot, List.dropLast_concat]

/-- On a tree whose directories can all be entered and listed and are nested
less deep than the array `ancestors` is long, `get_tree` returns. -/
theorem get_tree_returns (root : Node) :
    ∀ t, walkable t = true → t.isDir = true →
      ∀ (fuel : Nat) (w : TWalk) (dname : String) (level : Nat),
        resolve root (chdir root w.cwd dname) = some t → height t ≤ fuel →
        level + height t ≤ 100 →
        ∃ r, get_tree root fuel w dname level = some r ∧ r.cwd = chdir root w.cwd dname := by
  intro t
  induction t using node_induction with
  | hfile n => intro _ hd; cases hd
  | hdir n e l ks ih =>
    intro hw _ fuel w dname level hres hfuel hcap
    obtain ⟨_, hl, hnodup, hnames, hkids⟩ := (walkable_dir n e l ks).mp hw
    subst hl
    cases fuel with
    | zero => simp [height] at hfuel
    | succ f =>
      simp only [height] at hfuel hcap
      have hf : heightKids ks ≤ f := by omega
      have hscan : scandir root (chdir root w.cwd dname)
          = some (sortOn Dirent.d_name
              (⟨".", DType.DT_DIR⟩ :: ⟨"..", DType.DT_DIR⟩ :: ks.map Node.dirent)) := by
        simp [scandir, hres]
      simp only [get_tree, hscan]
      apply tree_entries_returns root (get_tree root f) (chdir root w.cwd dname) level
        (by omega) ks
      · intro k hk hd w2 hw2
        have hcd := chdir_into root _ n e true ks k hres hk hnodup (hnames k hk) hd (hkids k hk)
        have hk2 := height_le_of_mem ks k hk
        obtain ⟨r, hr, hc⟩ := ih k hk (hkids k hk) hd f w2 k.name (level + 1)
          (by rw [hw2, hcd]; exact chdir_kid root _ n e true ks k hres hk hnodup)
          (by omega) (by omega)
        exact ⟨r, hr, by rw [hc, hw2, hcd]⟩
      · intro x hx
        have hx2 := (mem_sortOn _ _ _).mp hx
        rcases List.mem_cons.mp hx2 with h | h
        · left; subst h; decide
        · rcases List.mem_cons.mp h with h | h
          · left; subst h; decide
          · right
            obtain ⟨k, hk, rfl⟩ := List.mem_map.mp h
            exact ⟨k, hk, rfl⟩
      · rfl

/-! ## Theorems: the claims on the renderers -/

/-- C5 (the flat listing is the reference pre-order rendering). Let `t` be the
directory in which `chdir(dname)` leaves the traversal, with every directory
of `t` enterable and listable. Then `fileman_dir`, given one unit of fuel per
nesting level, returns, and what it has written is the line `dname` followed
by one line for each entry below `t`, none for `.` or `..`: the entries of a
directory in name order (`sorted_sortOn`, `perm_sortOn`), the lines of
everything below a directory right after its own line, and the line of an
entry at depth `d` made of `4 * d` spaces, its name and a newline
(`flatListing`). -/
theorem flat_listing_is_preorder (root : Node) (cwd : List String) (dname out : String)
    (t : Node) (fuel : Nat)
    (hres : resolve root (chdir root cwd dname) = some t)
    (hdir : t.isDir = true) (hw : walkable t = true) (hfuel : height t ≤ fuel) :
    fileman_dir root fuel ⟨cwd, out⟩ dname
      = some ⟨chdir root cwd dname, out ++ flatListing dname t⟩ := by
  unfold fileman_dir
  rw [get_dir_walk root t hw hdir fuel cwd dname _ 1 hres hfuel]
  simp [flatListing, String.append_assoc]

/-- C5 on the directory `d` with the entries `b`, `a`, `C`, `B`: they are
listed as `B`, `C`, `a`, `b`, and neither `.` nor `..` is. -/
theorem flat_listing_is_preorder_witness :
    resolve lettersDir (chdir lettersDir [] "d")
      = some (.dir "d" true true [.file "b", .file "a", .file "C", .file "B"]) ∧
    fileman_dir lettersDir 1 ⟨[], ""⟩ "d" = some ⟨["d"], "d\n    B\n    C\n    a\n    b\n"⟩ :=
  ⟨rfl,
    (flat_listing_is_preorder lettersDir [] "d" ""
      (.dir "d" true true [.file "b", .file "a", .file "C", .file "B"]) 1
      rfl (by decide) (by decide) (by decide)).trans (by decide)⟩

/-- The tree of the header comment of `fileman_tree`, cut to three entries,
is drawn as the header shows when cell 0 of `ancestors` happens to hold
`false`. -/
theorem tree_header_example :
    (fileman_tree world 3 [] "" (fun _ => false) "world").map (fun w => w.out)
      = some "world\n├── europe\n│   └── france\n└── usa\n" := by
  decide

/-- C6 (the last entry, and only it, carries the elbow) fails on names that
sort before `.`. In the directory `world` whose only entry is `-a`, `scandir`
returns `-a`, `.`, `..` in this order, the test `i == entry-1` holds for `..`
only, and the one line of the tree carries the tee: no line carries the
elbow. -/
theorem last_entry_gets_tee :
    scandir dashDir ["world"]
      = some [⟨"-a", DType.DT_REG⟩, ⟨".", DType.DT_DIR⟩, ⟨"..", DType.DT_DIR⟩] ∧
    (fileman_tree dashDir 2 [] "" (fun _ => false) "world").map (fun w => w.out)
      = some "world\n├── -a\n" := by
  decide

/-- C7 (flat and tree depth agree; depth 0 contributes no unit) fails when
cell 0 of the uninitialised array `ancestors` holds `true`: every line of the
tree then starts with a guide for depth 0, so `europe`, one unit deep in the
flat listing, is two units deep in the tree. -/
theorem garbage_flag_adds_unit :
    fileman_dir world 3 ⟨[], ""⟩ "world"
      = some ⟨["world"], "world\n    europe\n        france\n    usa\n"⟩ ∧
    (fileman_tree world 3 [] "" (fun _ => true) "world").map (fun w => w.out)
      = some "world\n│   ├── europe\n│   │   └── france\n│   └── usa\n" := by
  decide

theorem locked_get_dir (fuel : Nat) :
    ∀ (out : String) (level : Nat), get_dir lockedDir fuel ⟨["top"], out⟩ "s" level = none := by
  induction fuel with
  | zero => intro out level; rfl
  | succ fuel ih =>
    intro out level
    have hcd : chdir lockedDir ["top"] "s" = ["top"] := by decide
    have hscan : scandir lockedDir ["top"]
        = some [⟨".", DType.DT_DIR⟩, ⟨"..", DType.DT_DIR⟩, ⟨"s", DType.DT_DIR⟩,
            ⟨"z", DType.DT_REG⟩] := by decide
    simp only [get_dir, hcd, hscan]
    simp [dir_entries, ih]

theorem locked_get_tree (fuel : Nat) :
    ∀ (w : TWalk) (level : Nat), w.cwd = ["top"] →
      get_tree lockedDir fuel w "s" level = none := by
  induction fuel with
  | zero => intro w level _; rfl
  | succ fuel ih =>
    intro w level hw
    have hcd : chdir lockedDir ["top"] "s" = ["top"] := by decide
    have hscan : scandir lockedDir ["top"]
        = some [⟨".", DType.DT_DIR⟩, ⟨"..", DType.DT_DIR⟩, ⟨"s", DType.DT_DIR⟩,
            ⟨"z", DType.DT_REG⟩] := by decide
    simp only [get_tree, hw, hcd, hscan]
    by_cases hlev : level < 100
    · simp [tree_entries, hlev, ih]
    · simp [tree_entries, hlev]

/-- C8 (a subtree that cannot be listed is aborted locally) fails on a
subdirectory that cannot be entered. In `top`, with the subdirectory `s` that
cannot be entered and the file `z`, the `chdir` into `s` fails and leaves the
traversal in `top`, so the call for `s` lists `top` again, meets `s` again,
and so on: neither `fileman_dir` nor `fileman_tree` returns, whatever the
fuel (the tree view runs, on the way, past the end of `ancestors`). -/
theorem unenterable_subdir_never_returns :
    chdir lockedDir ["top"] "s" = ["top"] ∧
    (∀ fuel, fileman_dir lockedDir fuel ⟨[], ""⟩ "top" = none) ∧
    (∀ fuel, fileman_tree lockedDir fuel [] "" (fun _ => false) "top" = none) := by
  have hcd : chdir lockedDir [] "top" = ["top"] := by decide
  have hscan : scandir lockedDir ["top"]
      = some [⟨".", DType.DT_DIR⟩, ⟨"..", DType.DT_DIR⟩, ⟨"s", DType.DT_DIR⟩,
          ⟨"z", DType.DT_REG⟩] := by decide
  refine ⟨by decide, fun fuel => ?_, fun fuel => ?_⟩
  · cases fuel with
    | zero => rfl
    | succ fuel =>
      simp only [fileman_dir, get_dir, hcd, hscan]
      simp [dir_entries, locked_get_dir]
  · cases fuel with
    | zero => rfl
    | succ fuel =>
      simp only [fileman_tree, get_tree, hcd, hscan]
      simp [tree_entries, locked_get_tree]

/-- C9 (continuation flags are stable under descent). Whenever a call of
`get_tree` at level `level` returns, (1) every cell of `ancestors` below
`level` holds what it held at the call: the call and the calls it makes store
at indices from `level` on only; (2) what the call has written is what the
traversal writes when the flags are passed down by value, each level handing
its subdirectory the flags it received extended by its own flag, so that a
line is drawn from the flags the enclosing levels chose before descending;
and (3) in every line, unit `j` for `1 ≤ j` below the level of the line is
the vertical guide when flag `j` is set and four spaces when it is not. -/
theorem ancestors_stable_under_descent (root : Node) (fuel level : Nat) (w : TWalk)
    (dname : String) (r : TWalk) (h : get_tree root fuel w dname level = some r) :
    (∀ j, j < level → r.anc j = w.anc j) ∧
    get_tree_scoped root fuel ⟨w.cwd, w.out⟩ w.anc dname level = some ⟨r.cwd, r.out⟩ ∧
    (∀ (flags : Nat → Bool) (lvl : Nat) (last : Bool) (j : Nat), 1 ≤ j → j < lvl →
      tree_unit flags lvl last j = if flags j = true then "│   " else "    ") := by
  obtain ⟨h1, h2⟩ := get_tree_scoped_eq root fuel level w dname r h
  refine ⟨h1, h2 w.anc (fun _ _ => rfl), ?_⟩
  intro flags lvl last j hj hjl
  have h1 : j ≠ lvl := Nat.ne_of_lt hjl
  have h0 : j ≠ 0 := by omega
  unfold tree_unit
  simp only [h1, if_false, h0, ne_eq, not_false_eq_true, if_true]
  split <;> decide

/-- C9 on the tree of the header comment: the call of `get_tree` for `world`
returns, and its output is the output of the traversal with flags passed by
value. -/
theorem ancestors_stable_under_descent_witness :
    (get_tree world 3 ⟨[], "", fun _ => false⟩ "world" 1).isSome = true ∧
    get_tree_scoped world 3 ⟨[], ""⟩ (fun _ => false) "world" 1
      = some ⟨["world"], "├── europe\n│   └── france\n└── usa\n"⟩ :=
  ⟨by decide,
    (ancestors_stable_under_descent world 3 1 ⟨[], "", fun _ => false⟩ "world" _
      (Option.some_get (by decide)).symm).2.1.trans (by decide)⟩

end Fileman
